import Mathlib

/-!
Verification of the `nayru` dynamic-server framework core
(`core/app.ts`: `DynamicServerApp`, `startServer`, `buildRoutes`,
`findAvailablePort`, `probe`, `setState`).

The TypeScript code is shallowly embedded: JSON documents become the
inductive type `Json`, lodash's `isEqual` becomes `jeq`, a live object
becomes `AppInstance` (own enumerable fields plus a prototype chain of
property descriptors), and each method of interest becomes a Lean
function over those types.  Nondeterministic inputs of the real system
(the wall clock, the network, the OS port table) are passed in as
explicit parameters.
-/

namespace Nayru

/-- A JSON document, as produced by `JSON.parse`.  Object fields keep
their insertion order, mirroring JavaScript object key order. -/
inductive Json where
  | null : Json
  | bool (b : Bool) : Json
  | num (n : Int) : Json
  | str (s : String) : Json
  | arr (elems : List Json) : Json
  | obj (fields : List (String × Json)) : Json

/-- First-match lookup in a JSON object's field list (`o[k]`). -/
def lookupJ : List (String × Json) → String → Option Json
  | [], _ => none
  | (k, v) :: rest, key => if k = key then some v else lookupJ rest key

/-- Does every key of `gs` occur in `fs`?  (Key-set inclusion, used by
the object case of deep equality.) -/
def keysIncluded (gs fs : List (String × Json)) : Bool :=
  gs.all (fun p => (lookupJ fs p.1).isSome)

mutual

/-- lodash `isEqual` restricted to JSON documents: structural deep
equality, with object comparison insensitive to key order (same key
set, pairwise-equal values) and array comparison order-sensitive. -/
def jeq : Json → Json → Bool
  | .null, .null => true
  | .bool a, .bool b => a == b
  | .num a, .num b => a == b
  | .str a, .str b => a == b
  | .arr xs, .arr ys => jeqList xs ys
  | .obj fs, .obj gs => jeqFields fs gs && keysIncluded gs fs
  | _, _ => false

/-- Pointwise deep equality of JSON arrays. -/
def jeqList : List Json → List Json → Bool
  | [], [] => true
  | x :: xs, y :: ys => jeq x y && jeqList xs ys
  | _, _ => false

/-- Every field of `fs` is present in `gs` with a deep-equal value. -/
def jeqFields : List (String × Json) → List (String × Json) → Bool
  | [], _ => true
  | (k, v) :: fs, gs =>
      (match lookupJ gs k with
       | some w => jeq v w
       | none => false) && jeqFields fs gs

end

/-- A JavaScript property value as the framework distinguishes them:
either callable (`typeof v === "function"`) or plain data. -/
inductive Value where
  | func : Value
  | data (j : Json) : Value

/-- A property descriptor on a prototype object: its name, whether the
descriptor has a `get` accessor, and the value that reading the
property through the prototype would produce. -/
structure ProtoProp where
  name : String
  hasGetter : Bool
  value : Value

/-- An application instance as `getState` / `applyStateUpdate` see it:
its own enumerable fields in insertion order, and its prototype chain
(`Object.getPrototypeOf`, iterated, excluding `Object.prototype`),
each level listing its own property descriptors. -/
structure AppInstance where
  ownFields : List (String × Value)
  protos : List (List ProtoProp)

/-- First-match lookup among own fields. -/
def lookupOwn : List (String × Value) → String → Option Value
  | [], _ => none
  | (k, v) :: rest, key => if k = key then some v else lookupOwn rest key

/-- `Object.prototype.hasOwnProperty.call(this, key)`. -/
def hasOwn (inst : AppInstance) (key : String) : Bool :=
  (lookupOwn inst.ownFields key).isSome

/-- Lookup along the prototype chain, nearest level first. -/
def protoLookup : List (List ProtoProp) → String → Option Value
  | [], _ => none
  | level :: rest, key =>
      match level.find? (fun p => p.name = key) with
      | some p => some p.value
      | none => protoLookup rest key

/-- JavaScript property read `(this as any)[key]`: own fields shadow
the prototype chain. -/
def access (inst : AppInstance) (key : String) : Option Value :=
  match lookupOwn inst.ownFields key with
  | some v => some v
  | none => protoLookup inst.protos key

/-- JavaScript truthiness of a property-read result (`undefined`,
`null`, `false`, `0`, and `""` are falsy). -/
def truthy : Option Value → Bool
  | none => false
  | some .func => true
  | some (.data j) =>
      match j with
      | .null => false
      | .bool b => b
      | .num n => n != 0
      | .str s => s != ""
      | .arr _ => true
      | .obj _ => true

/-- The fixed exclusion set literal at the top of `getState`. -/
def excludeBase : List String :=
  ["schema", "logToUI", "notifyEnabled", "isServerInstance",
   "logPrefix", "stateFile", "isDevelopment", "audio"]

/-- `!(this as any).portExplicitlySet && !(this as any).isServerInstance`. -/
def shouldExcludePort (inst : AppInstance) : Bool :=
  !truthy (access inst "portExplicitlySet") &&
  !truthy (access inst "isServerInstance")

/-- The exclusion set actually used by one `getState` call: the fixed
set, with `"port"` added when the port was neither explicitly set nor
owned by a server instance. -/
def excludeSet (inst : AppInstance) : List String :=
  if shouldExcludePort inst then "port" :: excludeBase else excludeBase

/-- A state snapshot: ordered field/value pairs (callables can only
enter through the getter pass). -/
abbrev Snapshot := List (String × Value)

/-- Is `key` already a key of the snapshot built so far (`key in state`)? -/
def hasKey (st : Snapshot) (key : String) : Bool :=
  st.any (fun p => p.1 = key)

/-- The first loop of `getState`: own enumerable fields that are not
excluded and not functions. -/
def ownPass (excl : List String) : List (String × Value) → Snapshot
  | [] => []
  | (k, v) :: rest =>
      if excl.contains k then ownPass excl rest
      else
        match v with
        | .func => ownPass excl rest
        | .data j => (k, Value.data j) :: ownPass excl rest

/-- Reading a property that is known to exist somewhere on the object;
the default is unreachable for properties taken from the chain. -/
def accessD (inst : AppInstance) (key : String) : Value :=
  (access inst key).getD (Value.data Json.null)

/-- Inner loop of the prototype walk: for each own property name of
the current prototype, skip `constructor`, names already in the
snapshot, and excluded names; add getter-backed properties, reading
their value through the instance. -/
def addProps (inst : AppInstance) (excl : List String) :
    List ProtoProp → Snapshot → Snapshot
  | [], st => st
  | p :: ps, st =>
      if p.name = "constructor" || hasKey st p.name || excl.contains p.name then
        addProps inst excl ps st
      else if p.hasGetter then
        addProps inst excl ps (st ++ [(p.name, accessD inst p.name)])
      else
        addProps inst excl ps st

/-- Outer loop of the prototype walk (`while (proto && proto !==
Object.prototype)`). -/
def addLevels (inst : AppInstance) (excl : List String) :
    List (List ProtoProp) → Snapshot → Snapshot
  | [], st => st
  | level :: rest, st => addLevels inst excl rest (addProps inst excl level st)

/-- `DynamicServerApp.getState`: own non-excluded data fields, then
getter-backed prototype properties not shadowed by the snapshot so
far. -/
def getState (inst : AppInstance) : Snapshot :=
  addLevels inst (excludeSet inst) inst.protos
    (ownPass (excludeSet inst) inst.ownFields)

/-! ## State updates (`applyStateUpdate`, `saveState`) -/

/-- The `excludeFromUpdate` set literal inside `applyStateUpdate`. -/
def excludeFromUpdate : List String := ["audio"]

/-- JavaScript assignment `this[key] = v`: update the own property in
place when it exists, otherwise create it at the end. -/
def setField : List (String × Value) → String → Value → List (String × Value)
  | [], key, v => [(key, v)]
  | (k, w) :: rest, key, v =>
      if k = key then (key, v) :: rest else (k, w) :: setField rest key v

/-- The `Object.entries(data).forEach` loop of `applyStateUpdate`:
each patch entry is written onto the instance only when its key is not
in `excludeFromUpdate` and already exists as an own property. -/
def applyEntries (inst : AppInstance) : List (String × Json) → AppInstance
  | [] => inst
  | (k, v) :: rest =>
      if !excludeFromUpdate.contains k && hasOwn inst k then
        applyEntries
          { inst with ownFields := setField inst.ownFields k (Value.data v) } rest
      else
        applyEntries inst rest

/-- The observable effects `applyStateUpdate` queues besides mutating
the instance. -/
inductive Effect where
  | schedulePersist : Effect
deriving DecidableEq

/-- `DynamicServerApp.applyStateUpdate`: filter-write the patch, stamp
`lastUpdated` with the current time (`new Date().toISOString()`,
passed in as `now`), and schedule `saveState().catch(console.error)`. -/
def applyStateUpdate (inst : AppInstance) (patch : List (String × Json))
    (now : String) : AppInstance × List Effect :=
  let inst1 := applyEntries inst patch
  ({ inst1 with
      ownFields := setField inst1.ownFields "lastUpdated" (Value.data (Json.str now)) },
   [Effect.schedulePersist])

/-- Outcome of the `Bun.write` call inside `saveState`. -/
inductive WriteOutcome where
  | ok : WriteOutcome
  | fail (msg : String) : WriteOutcome

/-- The body of `saveState` before its `try`/`catch`: serializing and
writing may raise. -/
def saveStateBody (w : WriteOutcome) (isDev : Bool) : Except String (List String) :=
  match w with
  | .ok => .ok (if isDev then ["State saved"] else [])
  | .fail msg => .error msg

/-- `DynamicServerApp.saveState` after its `try`/`catch`: every raised
error is converted into a log line, so the persist never rejects. -/
def saveState (w : WriteOutcome) (isDev : Bool) : List String :=
  match saveStateBody w isDev with
  | .ok logs => logs
  | .error e => ["Failed to save state: " ++ e]

/-! ## The HTTP server (`startServer`) -/

/-- Response bodies the server can produce. -/
inductive Body where
  | stateJson (st : Snapshot) : Body
  | okState (st : Snapshot) : Body
  | okResult (r : Json) : Body
  | err (msg : String) : Body
  | methodsList (names : List String) : Body
  | text (s : String) : Body

/-- An HTTP response: status code and body. -/
structure Response where
  status : Nat
  body : Body

/-- `for (const key in parsed)` enumeration: object keys in insertion
order, array indices as decimal strings, and — because `for..in`
coerces a primitive string with `ToObject`, whose integer-index
properties are enumerable — character indices as decimal strings for a
string; nothing for the other primitives. -/
def keysOf : Json → List String
  | .obj fields => fields.map Prod.fst
  | .arr elems => (List.range elems.length).map toString
  | .str s => (List.range s.length).map toString
  | _ => []

/-- Indexing `parsed[key]` for the enumerated keys: object field,
array element, or — for a string indexed by a decimal character index
— the one-character string at that position. -/
def getJ : Json → String → Option Json
  | .obj fields, k => lookupJ fields k
  | .arr elems, k =>
      (((List.range elems.length).map toString).zip elems).lookup k
  | .str s, k =>
      (((List.range s.length).map toString).zip
        (s.data.map (fun c => Json.str (String.mk [c])))).lookup k
  | _, _ => none

/-- `isEqual(parsed[key], current[key])` where the right side is a
snapshot read: `undefined` and callables are never `isEqual` to a
freshly parsed JSON value. -/
def jeqVal (j : Json) : Option Value → Bool
  | some (Value.data j') => jeq j j'
  | _ => false

/-- The diff loop of `POST /state`: keep exactly the proposed fields
that are not deep-equal to the current snapshot's value. -/
def diffPatch (parsed : Json) (current : Snapshot) : List (String × Json) :=
  (keysOf parsed).filterMap fun k =>
    match getJ parsed k with
    | some v => if jeqVal v (lookupOwn current k) then none else some (k, v)
    | none => none

/-- The request body as the handler sees it: either the value
`JSON.parse` produced, or the message of the exception it threw. -/
abbrev ParsedBody := Except String Json

/-- The `POST /state` handler: diff against the current snapshot,
apply the patch only when it is non-empty, reply 200 with the (possibly
updated) snapshot; a `JSON.parse` failure is caught and answered 400
with `err.message || "Invalid JSON"`. -/
def handlePostState (inst : AppInstance) (body : ParsedBody) (now : String) :
    AppInstance × Response × List Effect :=
  match body with
  | .error m => (inst, ⟨400, .err (if m = "" then "Invalid JSON" else m)⟩, [])
  | .ok parsed =>
      let patch := diffPatch parsed (getState inst)
      if patch.isEmpty then
        (inst, ⟨200, .okState (getState inst)⟩, [])
      else
        let (inst1, effs) := applyStateUpdate inst patch now
        (inst1, ⟨200, .okState (getState inst1)⟩, effs)

/-- Result of awaiting a routed method. -/
inductive CallOutcome where
  | ok (r : Json) : CallOutcome
  | thrown (msg : String) : CallOutcome

/-- `Array.isArray(parsed) ? parsed : [parsed]`. -/
def argList : Json → List Json
  | .arr elems => elems
  | j => [j]

/-- The `POST /<name>` handler: parse the body inside the `try`, build
the positional argument list, answer 200 with the result or 500 with
the thrown message (a parse failure lands in the same `catch`). -/
def handleMethodPost (body : ParsedBody) (call : List Json → CallOutcome) :
    Response :=
  match body with
  | .error m => ⟨500, .err m⟩
  | .ok parsed =>
      match call (argList parsed) with
      | .ok r => ⟨200, .okResult r⟩
      | .thrown m => ⟨500, .err m⟩

/-- `typeof (app as any)[k] === "function"`. -/
def isFunc : Option Value → Bool
  | some Value.func => true
  | _ => false

/-- `Object.getOwnPropertyNames(Object.getPrototypeOf(app))` filtered
to non-constructor names whose instance read is callable — the
expression shared by `buildRoutes` and the `/methods` endpoint. -/
def protoMethodNames (inst : AppInstance) : List String :=
  (inst.protos.headD []).filterMap fun p =>
    if p.name ≠ "constructor" && isFunc (access inst p.name) then some p.name
    else none

/-- The key set of the route table `buildRoutes` builds: one path per
routed method, the member name prefixed with `/`. -/
def routePaths (inst : AppInstance) : List String :=
  (protoMethodNames inst).map (fun k => "/" ++ k)

/-- An incoming HTTP request, its body already run through
`JSON.parse` (the parse result is only consulted on the POST paths,
matching where the source parses). -/
structure Request where
  method : String
  path : String
  body : ParsedBody

/-- The request dispatcher of `startServer`: `/state` first (GET, POST,
else 405), then the `/methods` explorer (any verb), then POST-only
routed methods, else 404.  `call` gives the behaviour of the routed
method bound to each route path. -/
def dispatch (inst : AppInstance) (routes : List String)
    (call : String → List Json → CallOutcome) (req : Request) (now : String) :
    AppInstance × Response × List Effect :=
  if req.path = "/state" then
    if req.method = "GET" then
      (inst, ⟨200, .stateJson (getState inst)⟩, [])
    else if req.method = "POST" then
      handlePostState inst req.body now
    else
      (inst, ⟨405, .text "Method Not Allowed"⟩, [])
  else if req.path = "/methods" then
    (inst, ⟨200, .methodsList (protoMethodNames inst)⟩, [])
  else if req.method = "POST" && routes.contains req.path then
    (inst, handleMethodPost req.body (call req.path), [])
  else
    (inst, ⟨404, .text "Not Found"⟩, [])

/-! ## Port scanning (`findAvailablePort`) and liveness (`probe`) -/

/-- The bind-and-release loop of `findAvailablePort`, with the OS bind
outcomes supplied as `free`.  Returns the first free candidate and the
number of bind attempts made. -/
def scanPorts (free : Nat → Bool) : Nat → Nat → Option Nat × Nat
  | _, 0 => (none, 0)
  | port, n + 1 =>
      if free port then (some port, 1)
      else
        let (r, c) := scanPorts free (port + 1) n
        (r, c + 1)

/-- `findAvailablePort(start, maxAttempts)`: first bindable port
scanning upward from `start`, or the `No available ports` error after
`maxAttempts` failures. -/
def findAvailablePort (free : Nat → Bool) (start : Nat)
    (maxAttempts : Nat := 50) : Except String Nat :=
  match (scanPorts free start maxAttempts).1 with
  | some p => .ok p
  | none => .error ("No available ports found starting from " ++ toString start)

/-- What the `fetch` of `probe` resolved to: a response (carrying
`res.ok`), a network failure, or the `AbortController` timeout firing
first. -/
inductive FetchOutcome where
  | response (ok : Bool) : FetchOutcome
  | networkError (msg : String) : FetchOutcome
  | timedOut : FetchOutcome
deriving DecidableEq

/-- `DynamicServerApp.probe`: GET `http://localhost:<port>/state`
under a timeout; return `res.ok`, with every exception caught and
collapsed to `false`. -/
def probe (r : FetchOutcome) : Bool :=
  match r with
  | .response ok => ok
  | .networkError _ => false
  | .timedOut => false

/-! ## `setState`: local apply vs. RPC forward -/

/-- What the remote `POST /state` round-trip of `setState` produced:
a parsed reply (whose `state` field may be absent) or a thrown
fetch/parse error. -/
inductive RemoteOutcome where
  | replied (st : Option Snapshot) : RemoteOutcome
  | failed (msg : String) : RemoteOutcome

/-- `DynamicServerApp.setState`: when the probe found no daemon, apply
the diff locally and return the local snapshot; otherwise forward the
diff over RPC and return the reply's `state` (errors are logged and
yield `undefined`). -/
def setState (inst : AppInstance) (daemonLive : Bool)
    (diff : List (String × Json)) (now : String) (remote : RemoteOutcome) :
    AppInstance × Option Snapshot × List Effect :=
  if !daemonLive then
    let (inst1, effs) := applyStateUpdate inst diff now
    (inst1, some (getState inst1), effs)
  else
    match remote with
    | .replied st => (inst, st, [])
    | .failed _ => (inst, none, [])

/-! ## Auxiliary definitions used by the statements -/

/-- The value the last patch entry with the given key carries (patch
writes are sequential, so the last write wins). -/
def lastVal : List (String × Json) → String → Option Json
  | [], _ => none
  | (k, v) :: rest, key =>
      match lastVal rest key with
      | some w => some w
      | none => if k = key then some v else none

/-- `key` is an own enumerable data (non-callable) field. -/
def ownData (inst : AppInstance) (key : String) : Prop :=
  ∃ j, (key, Value.data j) ∈ inst.ownFields

/-- Some prototype level declares `key` with a `get` accessor. -/
def protoGetter (inst : AppInstance) (key : String) : Prop :=
  ∃ level ∈ inst.protos, ∃ p ∈ level, p.name = key ∧ p.hasGetter = true

/-- A minimal application instance: one user field `message`, the two
framework fields every `DynamicServerApp` carries, and one prototype
method. -/
def instHi : AppInstance :=
  { ownFields :=
      [("message", Value.data (Json.str "hi")),
       ("port", Value.data (Json.num 2000)),
       ("isServerInstance", Value.data (Json.bool false))],
    protos := [[⟨"speak", false, Value.func⟩]] }

/-- An instance whose prototype carries a getter that reads back a
callable value. -/
def instGetterFn : AppInstance :=
  { ownFields :=
      [("port", Value.data (Json.num 2000)),
       ("isServerInstance", Value.data (Json.bool false))],
    protos := [[⟨"funGetter", true, Value.func⟩]] }

/-- Bind outcomes where everything from port 2001 upward is free. -/
def freeFrom2001 (p : Nat) : Bool := decide (2001 ≤ p)

/-- Bind outcomes where no port is ever free. -/
def neverFree : Nat → Bool := fun _ => false

/-- An empty route table. -/
def noRoutes : List String := []

/-- A routed-method behaviour that ignores its input. -/
def noCall : String → List Json → CallOutcome := fun _ _ => CallOutcome.ok Json.null

/-! ## Lemmas about field lookup and assignment -/

theorem lookupOwn_eq_none {l : List (String × Value)} {k : String} :
    lookupOwn l k = none ↔ k ∉ l.map Prod.fst := by
  induction l with
  | nil => simp [lookupOwn]
  | cons hd tl ih =>
      obtain ⟨hk, hv⟩ := hd
      simp only [lookupOwn, List.map_cons, List.mem_cons]
      by_cases h : hk = k
      · subst h; simp
      · rw [if_neg h, ih]
        constructor
        · intro hnk hc
          rcases hc with hc | hc
          · exact h hc.symm
          · exact hnk hc
        · intro hc hm
          exact hc (Or.inr hm)

theorem lookupOwn_isSome {l : List (String × Value)} {k : String} :
    (lookupOwn l k).isSome = true ↔ k ∈ l.map Prod.fst := by
  rw [Option.isSome_iff_ne_none, ne_eq, lookupOwn_eq_none, not_not]

theorem lookupOwn_setField (own : List (String × Value)) (k : String) (v : Value)
    (k' : String) :
    lookupOwn (setField own k v) k' = if k' = k then some v else lookupOwn own k' := by
  induction own with
  | nil =>
      simp only [setField, lookupOwn]
      by_cases h : k = k'
      · subst h; simp
      · rw [if_neg h, if_neg (fun hh => h hh.symm)]
  | cons hd tl ih =>
      obtain ⟨hk, hv⟩ := hd
      by_cases h1 : hk = k
      · subst h1
        simp only [setField, if_pos rfl, lookupOwn]
        by_cases h2 : hk = k'
        · subst h2
          simp
        · simp only [if_neg h2, if_neg (fun hh : k' = hk => h2 hh.symm)]
      · simp only [setField, if_neg h1, lookupOwn]
        by_cases h2 : hk = k'
        · subst h2
          simp [if_neg h1]
        · simp only [if_neg h2, ih]

theorem keys_setField (own : List (String × Value)) (k : String) (v : Value) :
    (setField own k v).map Prod.fst =
      if (lookupOwn own k).isSome then own.map Prod.fst
      else own.map Prod.fst ++ [k] := by
  induction own with
  | nil => simp [setField, lookupOwn]
  | cons hd tl ih =>
      obtain ⟨hk, hv⟩ := hd
      simp only [setField, lookupOwn]
      by_cases h : hk = k
      · subst h; simp
      · simp only [if_neg h, List.map_cons, ih]
        by_cases hs : (lookupOwn tl k).isSome = true <;> simp [hs]

/-! ## Lemmas about `applyEntries` -/

theorem applyEntries_protos (patch : List (String × Json)) :
    ∀ inst : AppInstance, (applyEntries inst patch).protos = inst.protos := by
  induction patch with
  | nil => intro inst; rfl
  | cons hd tl ih =>
      intro inst
      obtain ⟨k, v⟩ := hd
      simp only [applyEntries]
      split
      · exact ih _
      · exact ih _

theorem applyEntries_keys (patch : List (String × Json)) :
    ∀ inst : AppInstance,
      (applyEntries inst patch).ownFields.map Prod.fst =
        inst.ownFields.map Prod.fst := by
  induction patch with
  | nil => intro inst; rfl
  | cons hd tl ih =>
      intro inst
      obtain ⟨k, v⟩ := hd
      simp only [applyEntries]
      split
      · next hcond =>
          rw [ih]
          show (setField inst.ownFields k (Value.data v)).map Prod.fst =
            inst.ownFields.map Prod.fst
          rw [keys_setField]
          have h2 : (lookupOwn inst.ownFields k).isSome = true :=
            ((Bool.and_eq_true _ _).mp hcond).2
          rw [if_pos h2]
      · exact ih _

theorem hasOwn_applyEntries (patch : List (String × Json)) (inst : AppInstance)
    (k : String) : hasOwn (applyEntries inst patch) k = hasOwn inst k := by
  unfold hasOwn
  by_cases h : k ∈ inst.ownFields.map Prod.fst
  · rw [lookupOwn_isSome.mpr h,
      lookupOwn_isSome.mpr (by rw [applyEntries_keys]; exact h)]
  · rw [lookupOwn_eq_none.mpr h,
      lookupOwn_eq_none.mpr (by rw [applyEntries_keys]; exact h)]

theorem hasOwn_after_setField (inst : AppInstance) (k1 : String) (w : Value)
    (hown : hasOwn inst k1 = true) (k : String) :
    hasOwn { inst with ownFields := setField inst.ownFields k1 w } k =
      hasOwn inst k := by
  unfold hasOwn at hown ⊢
  simp only [lookupOwn_setField]
  by_cases hk : k = k1
  · subst hk
    rw [if_pos rfl, hown]
    rfl
  · rw [if_neg hk]

theorem lookupOwn_applyEntries (patch : List (String × Json)) :
    ∀ (inst : AppInstance) (k : String),
      lookupOwn (applyEntries inst patch).ownFields k =
        match lastVal patch k with
        | some v =>
            if !excludeFromUpdate.contains k && hasOwn inst k then
              some (Value.data v)
            else lookupOwn inst.ownFields k
        | none => lookupOwn inst.ownFields k := by
  induction patch with
  | nil => intro inst k; simp [applyEntries, lastVal]
  | cons hd tl ih =>
      intro inst k
      obtain ⟨k1, v1⟩ := hd
      simp only [applyEntries, lastVal]
      by_cases hg : (!excludeFromUpdate.contains k1 && hasOwn inst k1) = true
      · rw [if_pos hg]
        rw [ih]
        have hown1 : hasOwn inst k1 = true := ((Bool.and_eq_true _ _).mp hg).2
        have hkeys := hasOwn_after_setField inst k1 (Value.data v1) hown1 k
        rcases hl : lastVal tl k with _ | w
        · simp only [hl]
          by_cases hk : k1 = k
          · subst hk
            simp only [if_pos rfl, hg, if_true]
            show lookupOwn (setField inst.ownFields k1 (Value.data v1)) k1 = _
            rw [lookupOwn_setField, if_pos rfl]
          · simp only [if_neg hk]
            show lookupOwn (setField inst.ownFields k1 (Value.data v1)) k = _
            rw [lookupOwn_setField, if_neg (fun hh => hk hh.symm)]
        · simp only [hl, hkeys]
          by_cases hcond : (!excludeFromUpdate.contains k && hasOwn inst k) = true
          · rw [if_pos hcond, if_pos hcond]
          · rw [if_neg hcond, if_neg hcond]
            show lookupOwn (setField inst.ownFields k1 (Value.data v1)) k = _
            by_cases hk : k = k1
            · subst hk
              exact absurd hg hcond
            · rw [lookupOwn_setField, if_neg hk]
      · rw [if_neg hg]
        rw [ih]
        rcases hl : lastVal tl k with _ | w
        · simp only [hl]
          by_cases hk : k1 = k
          · subst hk
            have e : (if k1 = k1 then some v1 else none) = some v1 := by simp
            rw [e]
            show lookupOwn inst.ownFields k1 =
              if (!excludeFromUpdate.contains k1 && hasOwn inst k1) = true then
                some (Value.data v1)
              else lookupOwn inst.ownFields k1
            rw [if_neg hg]
          · simp only [if_neg hk]
        · simp only [hl]

theorem lookupOwn_ext (l1 : List (String × Value)) :
    ∀ l2 : List (String × Value),
      l1.map Prod.fst = l2.map Prod.fst →
      (l1.map Prod.fst).Nodup →
      (∀ k, lookupOwn l1 k = lookupOwn l2 k) → l1 = l2 := by
  induction l1 with
  | nil =>
      intro l2 hk _ _
      cases l2 with
      | nil => rfl
      | cons hd tl => simp at hk
  | cons hd tl ih =>
      intro l2 hk hnd h
      obtain ⟨k1, v1⟩ := hd
      cases l2 with
      | nil => simp at hk
      | cons hd2 tl2 =>
          obtain ⟨k2, v2⟩ := hd2
          simp only [List.map_cons, List.cons.injEq] at hk
          obtain ⟨hkk, hkt⟩ := hk
          subst hkk
          have hv : v1 = v2 := by
            have hh := h k1
            simp [lookupOwn] at hh
            exact hh
          subst hv
          have hndc : (k1 :: tl.map Prod.fst).Nodup := by
            simpa using hnd
          have hnd2 := List.nodup_cons.mp hndc
          congr 1
          apply ih tl2 hkt hnd2.2
          intro k
          by_cases hkeq : k = k1
          · subst hkeq
            rw [lookupOwn_eq_none.mpr hnd2.1, lookupOwn_eq_none.mpr (hkt ▸ hnd2.1)]
          · have hh := h k
            simpa only [lookupOwn, if_neg (fun hc : k1 = k => hkeq hc.symm)] using hh

/-! ## C3: update guard, timestamp, scheduled persist -/

/-- C3: `applyStateUpdate` writes a key onto the instance only if it
already exists as an own field — a key absent from the instance's
shape is silently dropped and stays absent (apart from the
`lastUpdated` stamp itself) — then stamps `lastUpdated` with the
current time, schedules exactly one asynchronous persist, and the
persist's failures are converted to a log line by `saveState`'s
`catch`, never rethrown to the caller. -/
theorem applyStateUpdate_guard_stamp_persist (inst : AppInstance)
    (patch : List (String × Json)) (now : String) :
    (∀ k, k ≠ "lastUpdated" → hasOwn inst k = false →
        lookupOwn ((applyStateUpdate inst patch now).1).ownFields k =
          lookupOwn inst.ownFields k) ∧
    lookupOwn ((applyStateUpdate inst patch now).1).ownFields "lastUpdated" =
      some (Value.data (Json.str now)) ∧
    (applyStateUpdate inst patch now).2 = [Effect.schedulePersist] ∧
    (∀ m dev, saveState (WriteOutcome.fail m) dev =
        ["Failed to save state: " ++ m]) := by
  refine ⟨?_, ?_, rfl, fun m dev => rfl⟩
  · intro k hklu hknot
    show lookupOwn (setField (applyEntries inst patch).ownFields "lastUpdated"
      (Value.data (Json.str now))) k = lookupOwn inst.ownFields k
    rw [lookupOwn_setField, if_neg hklu, lookupOwn_applyEntries]
    rcases hl : lastVal patch k with _ | w
    · simp only [hl]
    · simp only [hl, hknot, Bool.and_false, Bool.false_eq_true, if_false]
  · show lookupOwn (setField (applyEntries inst patch).ownFields "lastUpdated"
      (Value.data (Json.str now))) "lastUpdated" = some (Value.data (Json.str now))
    rw [lookupOwn_setField]
    simp

theorem applyStateUpdate_guard_stamp_persist_witness :
    lookupOwn ((applyStateUpdate instHi [("bogus", Json.num 1)] "t0").1).ownFields
        "bogus" = none ∧
    lookupOwn ((applyStateUpdate instHi [("bogus", Json.num 1)] "t0").1).ownFields
        "lastUpdated" = some (Value.data (Json.str "t0")) := by
  have h := applyStateUpdate_guard_stamp_persist instHi [("bogus", Json.num 1)] "t0"
  refine ⟨?_, h.2.1⟩
  rw [h.1 "bogus" (by decide) rfl]
  rfl

/-! ## C5: port scanning -/

theorem scanPorts_some (free : Nat → Bool) :
    ∀ (n port p : Nat), (scanPorts free port n).1 = some p →
      free p = true ∧ port ≤ p ∧ p < port + n ∧
        ∀ q, port ≤ q → q < p → free q = false := by
  intro n
  induction n with
  | zero => intro port p h; simp [scanPorts] at h
  | succ n ih =>
      intro port p h
      simp only [scanPorts] at h
      by_cases hf : free port = true
      · rw [if_pos hf] at h
        simp only at h
        obtain rfl : port = p := by simpa using h
        exact ⟨hf, Nat.le_refl _, by omega, fun q hq1 hq2 => absurd hq1 (by omega)⟩
      · rw [if_neg hf] at h
        rcases hsc : scanPorts free (port + 1) n with ⟨r, c⟩
        rw [hsc] at h
        simp only at h
        obtain ⟨h1, h2, h3, h4⟩ := ih (port + 1) p (by rw [hsc]; exact h)
        refine ⟨h1, by omega, by omega, ?_⟩
        intro q hq1 hq2
        by_cases hq : q = port
        · subst hq
          revert hf
          cases free q <;> simp
        · exact h4 q (by omega) hq2

theorem scanPorts_none (free : Nat → Bool) :
    ∀ n port, (∀ i, i < n → free (port + i) = false) →
      scanPorts free port n = (none, n) := by
  intro n
  induction n with
  | zero => intro port _; rfl
  | succ n ih =>
      intro port h
      have h0 : free port = false := by simpa using h 0 (by omega)
      have hrest : scanPorts free (port + 1) n = (none, n) := by
        apply ih
        intro i hi
        have := h (i + 1) (by omega)
        rwa [show port + (i + 1) = port + 1 + i by omega] at this
      simp only [scanPorts, h0, Bool.false_eq_true, if_false, hrest]

/-- C5: `findAvailablePort(start, maxAttempts)` scans candidate ports
upward from `start`, returns the first port the OS lets it bind, and
when no candidate binds it fails with the no-available-port error
after exactly `maxAttempts` failed bind attempts. -/
theorem findAvailablePort_first_free (free : Nat → Bool) (start maxAttempts : Nat) :
    (∀ p, findAvailablePort free start maxAttempts = Except.ok p →
        free p = true ∧ start ≤ p ∧ p < start + maxAttempts ∧
          ∀ q, start ≤ q → q < p → free q = false) ∧
    ((∀ i, i < maxAttempts → free (start + i) = false) →
        findAvailablePort free start maxAttempts =
          Except.error ("No available ports found starting from " ++ toString start) ∧
        (scanPorts free start maxAttempts).2 = maxAttempts) := by
  constructor
  · intro p hp
    unfold findAvailablePort at hp
    rcases hs : (scanPorts free start maxAttempts).1 with _ | q
    · rw [hs] at hp
      simp at hp
    · rw [hs] at hp
      simp only [Except.ok.injEq] at hp
      subst hp
      exact scanPorts_some free maxAttempts start q hs
  · intro hall
    have hn := scanPorts_none free maxAttempts start hall
    constructor
    · unfold findAvailablePort
      rw [hn]
    · rw [hn]

theorem findAvailablePort_first_free_witness :
    freeFrom2001 2001 = true ∧ 2000 ≤ 2001 ∧ 2001 < 2000 + 50 ∧
    findAvailablePort neverFree 4000 3 =
      Except.error ("No available ports found starting from " ++ toString 4000) ∧
    (scanPorts neverFree 4000 3).2 = 3 := by
  have h1 := (findAvailablePort_first_free freeFrom2001 2000 50).1 2001 rfl
  have h2 := (findAvailablePort_first_free neverFree 4000 3).2 (fun i _ => rfl)
  exact ⟨h1.1, h1.2.1, h1.2.2.1, h2.1, h2.2⟩

/-! ## C6: probe collapses every failure to false -/

/-- C6: `probe` resolves to `true` exactly when the HTTP GET to
`/state` came back with a success status; a non-success response, a
network error, and the timeout firing all resolve to `false` (the
`catch` swallows every exception, so `probe` never throws). -/
theorem probe_true_iff (r : FetchOutcome) :
    probe r = true ↔ r = FetchOutcome.response true := by
  cases r with
  | response ok => cases ok <;> simp [probe]
  | networkError m => simp [probe]
  | timedOut => simp [probe]

/-! ## C7: routed-method invocation -/

/-- C7: on `POST /<name>` the parsed body is used verbatim as the
positional argument list when it is an array and wrapped into a
one-element list otherwise; a successful call answers 200 with
`{status: "ok", result}`, and a throwing call answers 500 with
`{error: message}`. -/
theorem method_route_args_and_errors (parsed : Json)
    (call : List Json → CallOutcome) :
    (∀ elems, parsed = Json.arr elems → argList parsed = elems) ∧
    ((∀ elems, parsed ≠ Json.arr elems) → argList parsed = [parsed]) ∧
    (∀ r, call (argList parsed) = CallOutcome.ok r →
        handleMethodPost (Except.ok parsed) call = ⟨200, Body.okResult r⟩) ∧
    (∀ m, call (argList parsed) = CallOutcome.thrown m →
        handleMethodPost (Except.ok parsed) call = ⟨500, Body.err m⟩) := by
  refine ⟨?_, ?_, ?_, ?_⟩
  · intro elems h
    subst h
    rfl
  · intro h
    cases parsed with
    | arr elems => exact absurd rfl (h elems)
    | null => rfl
    | bool b => rfl
    | num n => rfl
    | str s => rfl
    | obj fields => rfl
  · intro r h
    simp [handleMethodPost, h]
  · intro m h
    simp [handleMethodPost, h]

theorem method_route_args_and_errors_witness :
    argList (Json.num 3) = [Json.num 3] ∧
    handleMethodPost (Except.ok (Json.num 3))
        (fun args => CallOutcome.ok (Json.arr args)) =
      ⟨200, Body.okResult (Json.arr [Json.num 3])⟩ := by
  have h := method_route_args_and_errors (Json.num 3)
    (fun args => CallOutcome.ok (Json.arr args))
  exact ⟨h.2.1 (fun elems hc => Json.noConfusion hc),
    h.2.2.1 (Json.arr [Json.num 3]) rfl⟩

/-! ## C9: local fallback in setState -/

/-- C9: when the liveness probe finds no daemon, `setState` applies
the diff locally through `applyStateUpdate` and returns the local
snapshot instead of failing; only when a daemon is live is the diff
forwarded as an RPC, whose reply (or logged failure) becomes the
result while the local instance stays untouched. -/
theorem setState_local_fallback (inst : AppInstance)
    (diff : List (String × Json)) (now : String) (remote : RemoteOutcome) :
    setState inst false diff now remote =
      ((applyStateUpdate inst diff now).1,
       some (getState (applyStateUpdate inst diff now).1),
       (applyStateUpdate inst diff now).2) ∧
    (∀ st, remote = RemoteOutcome.replied st →
        setState inst true diff now remote = (inst, st, [])) ∧
    (∀ m, remote = RemoteOutcome.failed m →
        setState inst true diff now remote = (inst, none, [])) := by
  refine ⟨rfl, ?_, ?_⟩
  · intro st h
    subst h
    rfl
  · intro m h
    subst h
    rfl

theorem setState_local_fallback_witness :
    setState instHi true [] "t0" (RemoteOutcome.replied (some [])) =
      (instHi, some [], []) := by
  exact (setState_local_fallback instHi [] "t0"
    (RemoteOutcome.replied (some []))).2.1 (some []) rfl

/-! ## C1 and C10: the POST /state handler -/

theorem mem_diffPatch (parsed : Json) (current : Snapshot) (k : String) (v : Json) :
    (k, v) ∈ diffPatch parsed current ↔
      k ∈ keysOf parsed ∧ getJ parsed k = some v ∧
        jeqVal v (lookupOwn current k) = false := by
  unfold diffPatch
  rw [List.mem_filterMap]
  constructor
  · rintro ⟨a, ha, hf⟩
    rcases hg : getJ parsed a with _ | w
    · simp [hg] at hf
    · simp only [hg] at hf
      by_cases hj : jeqVal w (lookupOwn current a) = true
      · rw [if_pos hj] at hf
        simp at hf
      · rw [if_neg hj] at hf
        simp only [Option.some.injEq, Prod.mk.injEq] at hf
        obtain ⟨rfl, rfl⟩ := hf
        exact ⟨ha, hg, Bool.eq_false_iff.mpr hj⟩
  · rintro ⟨hk, hg, hj⟩
    refine ⟨k, hk, ?_⟩
    simp only [hg]
    rw [if_neg (by simp [hj])]

/-- C1: for a `POST /state` whose body parses, the handler computes a
per-field deep-equality diff against the current snapshot (the `patch`
characterised field-by-field below), applies it via `applyStateUpdate`
only when non-empty, and answers 200 with `{status:"ok", state}`
carrying the resulting snapshot — also when the patch is empty; a body
that fails to parse is answered 400 with an error body and leaves the
instance untouched. -/
theorem post_state_diff_apply_ok (inst : AppInstance) (parsed : Json) (now : String) :
    (∀ k v, (k, v) ∈ diffPatch parsed (getState inst) ↔
        k ∈ keysOf parsed ∧ getJ parsed k = some v ∧
          jeqVal v (lookupOwn (getState inst) k) = false) ∧
    ((diffPatch parsed (getState inst)).isEmpty = true →
        handlePostState inst (Except.ok parsed) now =
          (inst, ⟨200, Body.okState (getState inst)⟩, [])) ∧
    ((diffPatch parsed (getState inst)).isEmpty = false →
        handlePostState inst (Except.ok parsed) now =
          ((applyStateUpdate inst (diffPatch parsed (getState inst)) now).1,
           ⟨200, Body.okState
             (getState (applyStateUpdate inst (diffPatch parsed (getState inst)) now).1)⟩,
           (applyStateUpdate inst (diffPatch parsed (getState inst)) now).2)) ∧
    (∀ m, handlePostState inst (Except.error m) now =
        (inst, ⟨400, Body.err (if m = "" then "Invalid JSON" else m)⟩, [])) := by
  refine ⟨fun k v => mem_diffPatch parsed (getState inst) k v, ?_, ?_, fun m => rfl⟩
  · intro he
    simp [handlePostState, he]
  · intro he
    simp only [handlePostState, he, Bool.false_eq_true, if_false]

theorem post_state_diff_apply_ok_witness :
    handlePostState instHi (Except.ok (Json.obj [("message", Json.str "bye")])) "t0" =
      ((applyStateUpdate instHi
          (diffPatch (Json.obj [("message", Json.str "bye")]) (getState instHi)) "t0").1,
       ⟨200, Body.okState (getState (applyStateUpdate instHi
          (diffPatch (Json.obj [("message", Json.str "bye")]) (getState instHi)) "t0").1)⟩,
       (applyStateUpdate instHi
          (diffPatch (Json.obj [("message", Json.str "bye")]) (getState instHi)) "t0").2) := by
  exact (post_state_diff_apply_ok instHi
    (Json.obj [("message", Json.str "bye")]) "t0").2.2.1 rfl

/-- C10: when every proposed field of a parsed `POST /state` body is
deep-equal to the current snapshot's value, the diff is empty, so no
field of the instance changes (`lastUpdated` included), no persist is
scheduled, and the reply is still 200 `{status:"ok"}` with the
unchanged snapshot. -/
theorem post_state_noop_on_equal (inst : AppInstance) (parsed : Json) (now : String)
    (h : ∀ k, k ∈ keysOf parsed → ∀ v, getJ parsed k = some v →
        jeqVal v (lookupOwn (getState inst) k) = true) :
    handlePostState inst (Except.ok parsed) now =
      (inst, ⟨200, Body.okState (getState inst)⟩, []) := by
  have hd : diffPatch parsed (getState inst) = [] := by
    unfold diffPatch
    rw [List.filterMap_eq_nil_iff]
    intro a ha
    rcases hg : getJ parsed a with _ | w
    · simp [hg]
    · simp [hg, h a ha w hg]
  simp [handlePostState, hd]

theorem post_state_noop_on_equal_witness :
    handlePostState instHi (Except.ok (Json.obj [("message", Json.str "hi")])) "t0" =
      (instHi, ⟨200, Body.okState (getState instHi)⟩, []) := by
  apply post_state_noop_on_equal
  intro k hk v hv
  simp [keysOf] at hk
  subst hk
  simp [getJ, lookupJ] at hv
  subst hv
  rfl

/-! ## C8: the dispatch table -/

/-- C8 counterexample: `/state` is not the only always-present
resource path — a `GET /methods` with an empty route table is answered
200, not 404, so `/methods` is a second always-present path. -/
theorem methods_path_always_present_cex :
    ("/methods" : String) ≠ "/state" ∧
    noRoutes.contains "/methods" = false ∧
    (dispatch instHi noRoutes noCall
        ⟨"GET", "/methods", Except.ok Json.null⟩ "t0").2.1.status = 200 := by
  refine ⟨by decide, rfl, rfl⟩

theorem handlePostState_status_ne_404 (inst : AppInstance) (b : ParsedBody)
    (now : String) : (handlePostState inst b now).2.1.status ≠ 404 := by
  cases b with
  | error m => simp [handlePostState]
  | ok parsed =>
      simp only [handlePostState]
      by_cases he : (diffPatch parsed (getState inst)).isEmpty = true
      · simp [he]
      · simp [he]

/-- C8 (amended): the transport has two always-present resource paths
— `/state` (GET, POST, 405 otherwise, never 404) and the `/methods`
explorer (answered 200 under every verb) — plus one dynamically
generated path per routed method (the member name prefixed with `/`);
a routed method path is matched only under POST, and any other verb on
it (like any unknown path) is answered 404. -/
theorem dispatch_paths (inst : AppInstance) (routes : List String)
    (call : String → List Json → CallOutcome) (req : Request) (now : String) :
    (∀ p, p ∈ routePaths inst ↔ ∃ name ∈ protoMethodNames inst, p = "/" ++ name) ∧
    (req.path = "/state" →
        (dispatch inst routes call req now).2.1.status ≠ 404) ∧
    (req.path = "/methods" →
        (dispatch inst routes call req now).2.1 =
          ⟨200, Body.methodsList (protoMethodNames inst)⟩) ∧
    (req.path ≠ "/state" → req.path ≠ "/methods" → req.method ≠ "POST" →
        (dispatch inst routes call req now).2.1.status = 404) ∧
    (req.path ≠ "/state" → req.path ≠ "/methods" → routes.contains req.path = false →
        (dispatch inst routes call req now).2.1.status = 404) := by
  refine ⟨?_, ?_, ?_, ?_, ?_⟩
  · intro p
    simp [routePaths, List.mem_map, eq_comm]
  · intro hp
    unfold dispatch
    rw [if_pos hp]
    by_cases hg : req.method = "GET"
    · rw [if_pos hg]
      simp
    · rw [if_neg hg]
      by_cases hpost : req.method = "POST"
      · rw [if_pos hpost]
        exact handlePostState_status_ne_404 inst req.body now
      · rw [if_neg hpost]
        simp
  · intro hp
    unfold dispatch
    rw [if_neg (by rw [hp]; decide), if_pos hp]
  · intro h1 h2 h3
    unfold dispatch
    rw [if_neg h1, if_neg h2]
    simp [h3]
  · intro h1 h2 hr
    unfold dispatch
    rw [if_neg h1, if_neg h2]
    have hb : (decide (req.method = "POST") && routes.contains req.path) = false := by
      rw [hr, Bool.and_false]
    rw [if_neg (fun hc => Bool.false_ne_true (hb ▸ hc))]

theorem dispatch_paths_witness :
    (dispatch instHi ["/speak"] noCall
        ⟨"GET", "/speak", Except.ok Json.null⟩ "t0").2.1.status = 404 ∧
    (dispatch instHi noRoutes noCall
        ⟨"PUT", "/state", Except.ok Json.null⟩ "t0").2.1.status ≠ 404 := by
  have h1 := (dispatch_paths instHi ["/speak"] noCall
    ⟨"GET", "/speak", Except.ok Json.null⟩ "t0").2.2.2.1 (by decide) (by decide) (by decide)
  have h2 := (dispatch_paths instHi noRoutes noCall
    ⟨"PUT", "/state", Except.ok Json.null⟩ "t0").2.1 rfl
  exact ⟨h1, h2⟩

/-! ## C4: idempotence of applyStateUpdate -/

theorem lookupOwn_applyStateUpdate (inst : AppInstance) (patch : List (String × Json))
    (t : String) (k : String) :
    lookupOwn ((applyStateUpdate inst patch t).1).ownFields k =
      if k = "lastUpdated" then some (Value.data (Json.str t))
      else lookupOwn (applyEntries inst patch).ownFields k := by
  show lookupOwn (setField (applyEntries inst patch).ownFields "lastUpdated"
    (Value.data (Json.str t))) k = _
  rw [lookupOwn_setField]

theorem applyStateUpdate_keys (inst : AppInstance) (patch : List (String × Json))
    (t : String) :
    ((applyStateUpdate inst patch t).1).ownFields.map Prod.fst =
      if (lookupOwn inst.ownFields "lastUpdated").isSome then
        inst.ownFields.map Prod.fst
      else inst.ownFields.map Prod.fst ++ ["lastUpdated"] := by
  show (setField (applyEntries inst patch).ownFields "lastUpdated"
    (Value.data (Json.str t))).map Prod.fst = _
  rw [keys_setField]
  have hc : (lookupOwn (applyEntries inst patch).ownFields "lastUpdated").isSome =
      (lookupOwn inst.ownFields "lastUpdated").isSome :=
    hasOwn_applyEntries patch inst "lastUpdated"
  rw [hc, applyEntries_keys]

theorem lookupOwn_applyEntries_stamp (inst : AppInstance)
    (patch : List (String × Json)) (t1 : String) (k : String)
    (hk : k ≠ "lastUpdated") :
    lookupOwn (applyEntries (applyStateUpdate inst patch t1).1 patch).ownFields k =
      lookupOwn (applyEntries inst patch).ownFields k := by
  have hS1own : ∀ k', k' ≠ "lastUpdated" →
      lookupOwn ((applyStateUpdate inst patch t1).1).ownFields k' =
        lookupOwn (applyEntries inst patch).ownFields k' := by
    intro k' hk'
    rw [lookupOwn_applyStateUpdate, if_neg hk']
  have hhas : hasOwn (applyStateUpdate inst patch t1).1 k = hasOwn inst k := by
    have h1 : hasOwn (applyStateUpdate inst patch t1).1 k =
        hasOwn (applyEntries inst patch) k := by
      unfold hasOwn
      rw [hS1own k hk]
    exact h1.trans (hasOwn_applyEntries patch inst k)
  rw [lookupOwn_applyEntries]
  rcases hl : lastVal patch k with _ | w
  · simp only [hl]
    exact hS1own k hk
  · simp only [hl, hhas]
    by_cases hg : (!excludeFromUpdate.contains k && hasOwn inst k) = true
    · rw [if_pos hg]
      rw [lookupOwn_applyEntries]
      simp only [hl]
      rw [if_pos hg]
    · rw [if_neg hg]
      exact hS1own k hk

/-- C4: `applyStateUpdate` is idempotent — applying the same patch a
second time produces exactly the instance a single application stamped
at the later time would, and two single applications differ only in
the `lastUpdated` timestamp. -/
theorem applyStateUpdate_idempotent (inst : AppInstance)
    (patch : List (String × Json)) (t1 t2 : String)
    (hnd : (inst.ownFields.map Prod.fst).Nodup) :
    (applyStateUpdate (applyStateUpdate inst patch t1).1 patch t2).1 =
      (applyStateUpdate inst patch t2).1 ∧
    ∀ k, k ≠ "lastUpdated" →
      lookupOwn ((applyStateUpdate inst patch t1).1).ownFields k =
        lookupOwn ((applyStateUpdate inst patch t2).1).ownFields k := by
  constructor
  · have hluS1 : (lookupOwn ((applyStateUpdate inst patch t1).1).ownFields
        "lastUpdated").isSome = true := by
      rw [lookupOwn_applyStateUpdate]
      simp
    have hkeysS1 : ((applyStateUpdate inst patch t1).1).ownFields.map Prod.fst =
        (if (lookupOwn inst.ownFields "lastUpdated").isSome then
          inst.ownFields.map Prod.fst
        else inst.ownFields.map Prod.fst ++ ["lastUpdated"]) :=
      applyStateUpdate_keys inst patch t1
    have hkeysL :
        ((applyStateUpdate (applyStateUpdate inst patch t1).1 patch t2).1).ownFields.map
          Prod.fst =
        ((applyStateUpdate inst patch t2).1).ownFields.map Prod.fst := by
      rw [applyStateUpdate_keys ((applyStateUpdate inst patch t1).1) patch t2,
        applyStateUpdate_keys inst patch t2, hluS1, hkeysS1]
      simp
    have hndL :
        (((applyStateUpdate (applyStateUpdate inst patch t1).1 patch t2).1).ownFields.map
          Prod.fst).Nodup := by
      rw [applyStateUpdate_keys, hluS1, if_pos rfl, hkeysS1]
      by_cases hc : (lookupOwn inst.ownFields "lastUpdated").isSome = true
      · simpa [hc] using hnd
      · have hnm : "lastUpdated" ∉ inst.ownFields.map Prod.fst := by
          apply lookupOwn_eq_none.mp
          revert hc
          rcases lookupOwn inst.ownFields "lastUpdated" with _ | v <;> simp
        simp [hc, List.nodup_append, hnd, hnm]
    have hlook : ∀ k,
        lookupOwn ((applyStateUpdate (applyStateUpdate inst patch t1).1 patch
          t2).1).ownFields k =
        lookupOwn ((applyStateUpdate inst patch t2).1).ownFields k := by
      intro k
      rw [lookupOwn_applyStateUpdate, lookupOwn_applyStateUpdate]
      by_cases hk : k = "lastUpdated"
      · rw [if_pos hk, if_pos hk]
      · rw [if_neg hk, if_neg hk]
        exact lookupOwn_applyEntries_stamp inst patch t1 k hk
    have hown := lookupOwn_ext _ _ hkeysL hndL hlook
    calc (applyStateUpdate (applyStateUpdate inst patch t1).1 patch t2).1
        = ⟨((applyStateUpdate (applyStateUpdate inst patch t1).1 patch t2).1).ownFields,
           ((applyStateUpdate (applyStateUpdate inst patch t1).1 patch
             t2).1).protos⟩ := rfl
      _ = ⟨((applyStateUpdate inst patch t2).1).ownFields,
           ((applyStateUpdate inst patch t2).1).protos⟩ := by
            rw [hown]
            congr 1
            show (applyEntries (applyStateUpdate inst patch t1).1 patch).protos =
              (applyEntries inst patch).protos
            rw [applyEntries_protos, applyEntries_protos]
            show (applyEntries inst patch).protos = inst.protos
            rw [applyEntries_protos]
      _ = (applyStateUpdate inst patch t2).1 := rfl
  · intro k hk
    rw [lookupOwn_applyStateUpdate, lookupOwn_applyStateUpdate,
      if_neg hk, if_neg hk]

theorem applyStateUpdate_idempotent_witness :
    (instHi.ownFields.map Prod.fst).Nodup ∧
    (applyStateUpdate (applyStateUpdate instHi [("message", Json.str "x")] "t1").1
        [("message", Json.str "x")] "t2").1 =
      (applyStateUpdate instHi [("message", Json.str "x")] "t2").1 := by
  have hnd : (instHi.ownFields.map Prod.fst).Nodup := by decide
  exact ⟨hnd,
    (applyStateUpdate_idempotent instHi [("message", Json.str "x")] "t1" "t2" hnd).1⟩

/-! ## C2: what getState extracts -/

theorem hasKey_iff (st : Snapshot) (k : String) :
    hasKey st k = true ↔ k ∈ st.map Prod.fst := by
  unfold hasKey
  rw [List.any_eq_true]
  simp [List.mem_map]

theorem mem_excludeSet (inst : AppInstance) (k : String) :
    k ∈ excludeSet inst ↔
      k ∈ excludeBase ∨ (shouldExcludePort inst = true ∧ k = "port") := by
  unfold excludeSet
  by_cases h : shouldExcludePort inst = true
  · rw [if_pos h]
    simp [h, List.mem_cons, or_comm]
  · rw [if_neg h]
    simp [h]

theorem mem_keys_ownPass (excl : List String) (k : String) :
    ∀ own : List (String × Value),
      k ∈ (ownPass excl own).map Prod.fst ↔
        k ∉ excl ∧ ∃ j, (k, Value.data j) ∈ own := by
  intro own
  induction own with
  | nil => simp [ownPass]
  | cons hd tl ih =>
      obtain ⟨k1, v1⟩ := hd
      simp only [ownPass]
      by_cases hc : excl.contains k1 = true
      · rw [if_pos hc]
        rw [ih]
        constructor
        · rintro ⟨hne, j, hj⟩
          exact ⟨hne, j, List.mem_cons_of_mem _ hj⟩
        · rintro ⟨hne, j, hj⟩
          rcases List.mem_cons.mp hj with he | hm
          · obtain ⟨rfl, -⟩ := Prod.mk.injEq _ _ _ _ ▸ he
            exact absurd (List.elem_iff.mp hc) hne
          · exact ⟨hne, j, hm⟩
      · rw [if_neg hc]
        have hne1 : k1 ∉ excl := fun hm => hc (List.elem_iff.mpr hm)
        cases v1 with
        | func =>
            rw [ih]
            constructor
            · rintro ⟨hne, j, hj⟩
              exact ⟨hne, j, List.mem_cons_of_mem _ hj⟩
            · rintro ⟨hne, j, hj⟩
              rcases List.mem_cons.mp hj with he | hm
              · exact absurd he.symm (by simp)
              · exact ⟨hne, j, hm⟩
        | data j1 =>
            constructor
            · intro hmem
              rcases List.mem_cons.mp (List.map_cons _ _ _ ▸ hmem) with rfl | hm
              · exact ⟨hne1, j1, List.mem_cons_self _ _⟩
              · obtain ⟨hne, j, hj⟩ := ih.mp hm
                exact ⟨hne, j, List.mem_cons_of_mem _ hj⟩
            · rintro ⟨hne, j, hj⟩
              rw [List.map_cons]
              rcases List.mem_cons.mp hj with he | hm
              · exact List.mem_cons.mpr (Or.inl (congrArg Prod.fst he))
              · exact List.mem_cons.mpr (Or.inr (ih.mpr ⟨hne, j, hm⟩))

theorem mem_keys_addProps (inst : AppInstance) (excl : List String) (k : String) :
    ∀ (ps : List ProtoProp) (st : Snapshot),
      k ∈ (addProps inst excl ps st).map Prod.fst ↔
        k ∈ st.map Prod.fst ∨
          (k ∉ excl ∧ k ≠ "constructor" ∧
            ∃ p ∈ ps, p.name = k ∧ p.hasGetter = true) := by
  intro ps
  induction ps with
  | nil =>
      intro st
      simp [addProps]
  | cons p ps ih =>
      intro st
      simp only [addProps]
      by_cases h1 :
          (p.name = "constructor" || hasKey st p.name || excl.contains p.name) = true
      · rw [if_pos h1]
        rw [ih]
        simp only [Bool.or_eq_true, decide_eq_true_eq] at h1
        constructor
        · rintro (h | ⟨hne, hnc, q, hq, hnm, hget⟩)
          · exact Or.inl h
          · exact Or.inr ⟨hne, hnc, q, List.mem_cons_of_mem _ hq, hnm, hget⟩
        · rintro (h | ⟨hne, hnc, q, hq, hnm, hget⟩)
          · exact Or.inl h
          · rcases List.mem_cons.mp hq with rfl | hq2
            · rcases h1 with (hcon | hkey) | hexc
              · exact absurd (hnm.symm.trans hcon) hnc
              · exact Or.inl (hnm ▸ (hasKey_iff st q.name).mp hkey)
              · exact absurd (hnm ▸ List.elem_iff.mp hexc) hne
            · exact Or.inr ⟨hne, hnc, q, hq2, hnm, hget⟩
      · rw [if_neg h1]
        simp only [Bool.or_eq_true, decide_eq_true_eq, not_or] at h1
        obtain ⟨⟨hnc1, hnk1⟩, hne1⟩ := h1
        have hne1m : p.name ∉ excl := fun hm => hne1 (List.elem_iff.mpr hm)
        by_cases hg : p.hasGetter = true
        · rw [if_pos hg]
          rw [ih]
          simp only [List.map_append, List.mem_append, List.map_cons,
            List.mem_singleton, List.map_nil]
          constructor
          · rintro ((h | rfl) | ⟨hne, hnc, q, hq, hnm, hget⟩)
            · exact Or.inl h
            · exact Or.inr ⟨hne1m, hnc1, p, List.mem_cons_self _ _, rfl, hg⟩
            · exact Or.inr ⟨hne, hnc, q, List.mem_cons_of_mem _ hq, hnm, hget⟩
          · rintro (h | ⟨hne, hnc, q, hq, hnm, hget⟩)
            · exact Or.inl (Or.inl h)
            · rcases List.mem_cons.mp hq with rfl | hq2
              · exact Or.inl (Or.inr hnm.symm)
              · exact Or.inr ⟨hne, hnc, q, hq2, hnm, hget⟩
        · rw [if_neg hg]
          rw [ih]
          constructor
          · rintro (h | ⟨hne, hnc, q, hq, hnm, hget⟩)
            · exact Or.inl h
            · exact Or.inr ⟨hne, hnc, q, List.mem_cons_of_mem _ hq, hnm, hget⟩
          · rintro (h | ⟨hne, hnc, q, hq, hnm, hget⟩)
            · exact Or.inl h
            · rcases List.mem_cons.mp hq with rfl | hq2
              · exact absurd hget hg
              · exact Or.inr ⟨hne, hnc, q, hq2, hnm, hget⟩

theorem mem_keys_addLevels (inst : AppInstance) (excl : List String) (k : String) :
    ∀ (levels : List (List ProtoProp)) (st : Snapshot),
      k ∈ (addLevels inst excl levels st).map Prod.fst ↔
        k ∈ st.map Prod.fst ∨
          (k ∉ excl ∧ k ≠ "constructor" ∧
            ∃ level ∈ levels, ∃ p ∈ level, p.name = k ∧ p.hasGetter = true) := by
  intro levels
  induction levels with
  | nil =>
      intro st
      simp [addLevels]
  | cons level rest ih =>
      intro st
      simp only [addLevels]
      rw [ih, mem_keys_addProps]
      constructor
      · rintro ((h | ⟨hne, hnc, q, hq, hnm, hget⟩) | ⟨hne, hnc, lv, hlv, hp⟩)
        · exact Or.inl h
        · exact Or.inr ⟨hne, hnc, level, List.mem_cons_self _ _, q, hq, hnm, hget⟩
        · exact Or.inr ⟨hne, hnc, lv, List.mem_cons_of_mem _ hlv, hp⟩
      · rintro (h | ⟨hne, hnc, lv, hlv, q, hq, hnm, hget⟩)
        · exact Or.inl (Or.inl h)
        · rcases List.mem_cons.mp hlv with rfl | hlv2
          · exact Or.inl (Or.inr ⟨hne, hnc, q, hq, hnm, hget⟩)
          · exact Or.inr ⟨hne, hnc, lv, hlv2, q, hq, hnm, hget⟩

theorem mem_ownPass_val (excl : List String) :
    ∀ (own : List (String × Value)) (k : String) (v : Value),
      (k, v) ∈ ownPass excl own → ∃ j, v = Value.data j := by
  intro own
  induction own with
  | nil =>
      intro k v h
      simp [ownPass] at h
  | cons hd tl ih =>
      intro k v h
      obtain ⟨k1, v1⟩ := hd
      simp only [ownPass] at h
      by_cases hc : excl.contains k1 = true
      · rw [if_pos hc] at h
        exact ih k v h
      · rw [if_neg hc] at h
        cases v1 with
        | func => exact ih k v h
        | data j1 =>
            rcases List.mem_cons.mp h with he | hm
            · exact ⟨j1, congrArg Prod.snd he⟩
            · exact ih k v hm

theorem mem_addProps_val (inst : AppInstance) (excl : List String) :
    ∀ (ps : List ProtoProp) (st : Snapshot) (k : String) (v : Value),
      (k, v) ∈ addProps inst excl ps st →
        (k, v) ∈ st ∨
          ∃ p ∈ ps, p.name = k ∧ p.hasGetter = true ∧ v = accessD inst k := by
  intro ps
  induction ps with
  | nil =>
      intro st k v h
      exact Or.inl (by simpa [addProps] using h)
  | cons p ps ih =>
      intro st k v h
      simp only [addProps] at h
      by_cases h1 :
          (p.name = "constructor" || hasKey st p.name || excl.contains p.name) = true
      · rw [if_pos h1] at h
        rcases ih st k v h with h2 | ⟨q, hq, hrest⟩
        · exact Or.inl h2
        · exact Or.inr ⟨q, List.mem_cons_of_mem _ hq, hrest⟩
      · rw [if_neg h1] at h
        by_cases hg : p.hasGetter = true
        · rw [if_pos hg] at h
          rcases ih _ k v h with h2 | ⟨q, hq, hrest⟩
          · rcases List.mem_append.mp h2 with h3 | h3
            · exact Or.inl h3
            · rcases List.mem_singleton.mp h3 with he
              have hk : k = p.name := congrArg Prod.fst he
              have hv : v = accessD inst p.name := congrArg Prod.snd he
              exact Or.inr ⟨p, List.mem_cons_self _ _, hk.symm, hg, by rw [hv, hk]⟩
          · exact Or.inr ⟨q, List.mem_cons_of_mem _ hq, hrest⟩
        · rw [if_neg hg] at h
          rcases ih st k v h with h2 | ⟨q, hq, hrest⟩
          · exact Or.inl h2
          · exact Or.inr ⟨q, List.mem_cons_of_mem _ hq, hrest⟩

theorem mem_addLevels_val (inst : AppInstance) (excl : List String) :
    ∀ (levels : List (List ProtoProp)) (st : Snapshot) (k : String) (v : Value),
      (k, v) ∈ addLevels inst excl levels st →
        (k, v) ∈ st ∨
          ∃ level ∈ levels, ∃ p ∈ level,
            p.name = k ∧ p.hasGetter = true ∧ v = accessD inst k := by
  intro levels
  induction levels with
  | nil =>
      intro st k v h
      exact Or.inl (by simpa [addLevels] using h)
  | cons level rest ih =>
      intro st k v h
      simp only [addLevels] at h
      rcases ih _ k v h with h2 | ⟨lv, hlv, hp⟩
      · rcases mem_addProps_val inst excl level st k v h2 with h3 | ⟨q, hq, hrest⟩
        · exact Or.inl h3
        · exact Or.inr ⟨level, List.mem_cons_self _ _, q, hq, hrest⟩
      · exact Or.inr ⟨lv, List.mem_cons_of_mem _ hlv, hp⟩

/-- C2 (amended): the snapshot's keys are exactly the instance's own
enumerable data fields plus `get`-backed prototype properties (other
than `constructor`), minus the fixed exclusion set — with `port`
additionally excluded whenever the port was neither explicitly set nor
the instance a server instance; a callable value can enter the
snapshot only through a prototype getter whose instance read is
callable, so whenever no getter reads back a callable the snapshot
contains no callable at all (own fields never contribute callables). -/
theorem getState_keys_and_callables (inst : AppInstance) :
    (∀ k, k ∈ (getState inst).map Prod.fst ↔
        (k ∉ excludeBase ∧ (shouldExcludePort inst = true → k ≠ "port") ∧
          (ownData inst k ∨ (k ≠ "constructor" ∧ protoGetter inst k)))) ∧
    (∀ k, (k, Value.func) ∈ getState inst →
        protoGetter inst k ∧ accessD inst k = Value.func) ∧
    ((∀ k, protoGetter inst k → accessD inst k ≠ Value.func) →
        ∀ k v, (k, v) ∈ getState inst → v ≠ Value.func) := by
  have hval : ∀ k, (k, Value.func) ∈ getState inst →
      protoGetter inst k ∧ accessD inst k = Value.func := by
    intro k h
    unfold getState at h
    rcases mem_addLevels_val inst (excludeSet inst) inst.protos _ k Value.func h with
      h2 | ⟨lv, hlv, q, hq, hnm, hget, hacc⟩
    · obtain ⟨j, hj⟩ := mem_ownPass_val (excludeSet inst) inst.ownFields k Value.func h2
      exact absurd hj (by simp)
    · exact ⟨⟨lv, hlv, q, hq, hnm, hget⟩, hacc.symm⟩
  refine ⟨?_, hval, ?_⟩
  · intro k
    have hmem : k ∉ excludeSet inst ↔
        (k ∉ excludeBase ∧ (shouldExcludePort inst = true → k ≠ "port")) := by
      rw [mem_excludeSet]
      tauto
    unfold getState
    rw [mem_keys_addLevels, mem_keys_ownPass]
    unfold ownData protoGetter
    tauto
  · intro H k v hm heq
    subst heq
    exact H k (hval k hm).1 (hval k hm).2

/-- C2 counterexample: on an instance whose port is neither explicitly
set nor server-owned and whose prototype exposes a getter reading back
a callable, the snapshot both drops the own data field `port` (which
is not in the fixed exclusion set) and contains a callable value — so
the keys are not exactly "own data fields plus getters minus the fixed
set" and the snapshot does contain a callable. -/
theorem getState_port_and_getter_cex :
    getState instGetterFn = [("funGetter", Value.func)] ∧
    ("port", Value.data (Json.num 2000)) ∈ instGetterFn.ownFields ∧
    "port" ∉ excludeBase ∧
    "port" ∉ (getState instGetterFn).map Prod.fst ∧
    ("funGetter", Value.func) ∈ getState instGetterFn := by
  have e : getState instGetterFn = [("funGetter", Value.func)] := rfl
  refine ⟨e, ?_, by decide, ?_, ?_⟩
  · show ("port", Value.data (Json.num 2000)) ∈
      [("port", Value.data (Json.num 2000)),
       ("isServerInstance", Value.data (Json.bool false))]
    exact List.mem_cons_self _ _
  · rw [e]
    decide
  · rw [e]
    exact List.mem_singleton.mpr rfl

theorem getState_keys_and_callables_witness :
    "message" ∈ (getState instHi).map Prod.fst ∧
    Value.data (Json.str "hi") ≠ Value.func := by
  have h := getState_keys_and_callables instHi
  have hmem : ("message", Value.data (Json.str "hi")) ∈ getState instHi := by
    rw [show getState instHi = [("message", Value.data (Json.str "hi"))] from rfl]
    exact List.mem_singleton.mpr rfl
  have hH : ∀ k, protoGetter instHi k → accessD instHi k ≠ Value.func := by
    rintro k ⟨lv, hlv, q, hq, hnm, hget⟩
    rcases List.mem_singleton.mp hlv with rfl
    rcases List.mem_singleton.mp hq with rfl
    exact absurd hget (by decide)
  constructor
  · exact (h.1 "message").mpr ⟨by decide, fun _ => by decide,
      Or.inl ⟨Json.str "hi", by
        show ("message", Value.data (Json.str "hi")) ∈
          [("message", Value.data (Json.str "hi")),
           ("port", Value.data (Json.num 2000)),
           ("isServerInstance", Value.data (Json.bool false))]
        exact List.mem_cons_self _ _⟩⟩
  · exact h.2.2 hH "message" (Value.data (Json.str "hi")) hmem

end Nayru
